import Mathlib

/-
Verification of the JONSWAP spectrum pipeline (jonswapSpec.cpp) against its
specification.  The C++ code works on doubles; the embedding models the
arithmetic over the reals, with the C library functions pow, exp, sinh, cosh,
sqrt and cbrt mapped to their Mathlib counterparts.  Loop trip counts of the
float-stepped for-loops are derived under exact real arithmetic.
-/

namespace JonswapSpec

noncomputable section

/-- The member data of class jonswapSpec that the computations read:
alpha, wp, wmax, gamma, s1, s2 and the gravitational constant g
(set to 9.81 by both constructors). -/
structure Params where
  alpha : ℝ
  wp : ℝ
  wmax : ℝ
  gamma : ℝ
  s1 : ℝ
  s2 : ℝ
  g : ℝ

/-- jonswapSpec::getamp(double), lines 72-88.  The C ternary
(w > wp ? s2 : s1) picks s2 strictly above wp and s1 otherwise;
pow(w,-5) is the real power w^(-5), pow(gamma,r) the real power gamma^r. -/
def getamp (J : Params) (w : ℝ) : ℝ :=
  let s : ℝ := if w > J.wp then J.s2 else J.s1
  let dw : ℝ := w - J.wp
  let rexp_denom : ℝ := s * J.wp
  let rexp : ℝ := -(dw / rexp_denom) ^ 2 / 2
  let r : ℝ := Real.exp rexp
  let gammaR : ℝ := J.gamma ^ r
  let jdistExp : ℝ := -1.2 * (J.wp / w) ^ 4
  let c : ℝ := J.alpha * J.g * J.g * w ^ (-5 : ℤ)
  c * Real.exp jdistExp * gammaR

/-- The spectral density exactly as the specification words it (section 4.1):
s(w) = s1 if w <= wp else s2, r(w) = exp(-((w-wp)/(s(w)*wp))^2/2),
peakFactor = gamma^r, decay = exp(-1.2*(wp/w)^4),
density(w) = alpha * g^2 * w^-5 * decay * peakFactor.
Spec-side definition, to be compared with getamp. -/
def densitySpec (J : Params) (w : ℝ) : ℝ :=
  let s : ℝ := if w ≤ J.wp then J.s1 else J.s2
  let r : ℝ := Real.exp (-((w - J.wp) / (s * J.wp)) ^ 2 / 2)
  let peakFactor : ℝ := J.gamma ^ r
  let decay : ℝ := Real.exp (-1.2 * (J.wp / w) ^ 4)
  J.alpha * J.g ^ 2 * w ^ (-5 : ℤ) * decay * peakFactor

/-- jonswapSpec::getamp(vector<double>), lines 91-101.  The loop starts at
w.begin()+1 (the comment RAD: +1 marks the change), so the first input
element is dropped and each remaining element is mapped through the
scalar getamp. -/
def getampVec (J : Params) (w : List ℝ) : List ℝ :=
  (w.drop 1).map (getamp J)

/-- A concrete parameter set with strictly positive alpha, gamma and g,
used to evaluate the embedding at concrete inputs. -/
def Jex : Params :=
  { alpha := 1, wp := 1, wmax := 4, gamma := 2, s1 := 1, s2 := 1, g := 9.81 }

/-- jonswapSpec::bin, line 126: range = 0.4 * (wmax / n). -/
def jitterRange (wmax : ℝ) (n : ℕ) : ℝ := 0.4 * (wmax / n)

/-- jonswapSpec::bin, line 127: offset = -wmax / (2*n). -/
def jitterOffset (wmax : ℝ) (n : ℕ) : ℝ := -wmax / (2 * n)

/-- jonswapSpec::bin, line 132: the candidate boundary generated at loop
index i, with u the draw rand()/RAND_MAX in the interval from 0 to 1:
bound = i * wmax/n + u * range + offset. -/
def candidate (wmax : ℝ) (n i : ℕ) (u : ℝ) : ℝ :=
  i * wmax / n + u * jitterRange wmax n + jitterOffset wmax n

/-- jonswapSpec::bin, lines 131-135 (the uniform-jitter branch): the loop
for i = 1 .. n-1 generates one candidate per i; u i is the draw consumed
at index i. -/
def binCandidates (wmax : ℝ) (n : ℕ) (u : ℕ → ℝ) : List ℝ :=
  (List.range (n - 1)).map (fun j => candidate wmax n (j + 1) (u (j + 1)))

/-- Ordered insertion without duplicates: the effect of
std::set<double>::insert on the sorted contents of the set. -/
def setInsert (x : ℝ) : List ℝ → List ℝ
  | [] => [x]
  | y :: ys =>
    if x < y then x :: y :: ys
    else if x = y then y :: ys
    else y :: setInsert x ys

/-- The sorted contents of the set bounds after inserting every generated
candidate (jonswapSpec::bin, line 134). -/
def boundsOf (cands : List ℝ) : List ℝ :=
  cands.foldl (fun l x => setInsert x l) []

/-- jonswapSpec::bin, lines 146-164: the center-frequency computation over
the sorted boundary set b :: rest.  The loop runs the iterator from begin
up to prev(end); on its first iteration only, it additionally pushes
b/2; every iteration pushes the midpoint of the current and next
boundary; after the loop, (last + wmax)/2 is pushed.  When the set has a
single element the loop body never runs (begin = prev(end)), so b/2 is
never pushed.  On the empty set, prev(bounds.end()) is an invalid
iterator access, modelled as none. -/
def wcOf (bounds : List ℝ) (wmax : ℝ) : Option (List ℝ) :=
  match bounds with
  | [] => none
  | b :: rest =>
    let firstCenter : List ℝ := if rest.isEmpty then [] else [b / 2]
    let mids : List ℝ := ((b :: rest).zip rest).map (fun p => (p.1 + p.2) / 2)
    some (firstCenter ++ mids ++ [(rest.getLastD b + wmax) / 2])

/-- The inner trapezoid loop of jonswapSpec::calcBinAmps (lines 205-211 and
232-238): starting at startx and stepping by dx, each iteration adds
dx*(getamp(i) + getamp(i+dx))/2.  Under exact real arithmetic the loop
condition i < startx + binWidth with binWidth = count*dx runs the body
exactly count times, at i = startx + k*dx for k = 0 .. count-1. -/
def trapSum (f : ℝ → ℝ) (startx dx : ℝ) (count : ℕ) : ℝ :=
  (List.range count).foldl
    (fun binArea (k : ℕ) =>
      binArea + dx * (f (startx + (k : ℝ) * dx) + f (startx + ((k : ℝ) + 1) * dx)) / 2) 0

/-- jonswapSpec::calcBinAmps, lines 188-245.  The first block integrates
the first bin with dx = b0/(nmems+1) starting at dx (so binWidth =
(nmems+2)*dx minus the shift gives nmems+1 slices) and pushes the raw
binArea.  The following loop walks every element of bounds, pairs it
with the next boundary (or wmax for the last one), integrates with dx =
binWidth/nmems (nmems slices) and pushes binArea/binWidth.  With an
empty boundary set, *bounds_it on line 199 dereferences end(), modelled
as none. -/
def calcBinAmps (J : Params) (bounds : List ℝ) (nmems : ℕ) : Option (List ℝ) :=
  match bounds with
  | [] => none
  | b0 :: rest =>
    let dx0 : ℝ := b0 / ((nmems : ℝ) + 1)
    let first : ℝ := trapSum (getamp J) dx0 dx0 (nmems + 1)
    let pairs : List (ℝ × ℝ) := (b0 :: rest).zip (rest ++ [J.wmax])
    some (first :: pairs.map (fun p =>
      trapSum (getamp J) p.1 ((p.2 - p.1) / (nmems : ℝ)) nmems / (p.2 - p.1)))

/-- jonswapSpec::calcPaddleAmps, line 272: k0 = wc^2 / 9.81. -/
def k0Of (wc : ℝ) : ℝ := wc * wc / 9.81

/-- jonswapSpec::calcPaddleAmps, line 273:
kh = k0*h * pow(1 - exp(-pow(k0*h, 1.25)), -0.4). -/
def khOf (wc h : ℝ) : ℝ :=
  k0Of wc * h * (1 - Real.exp (-((k0Of wc * h) ^ (1.25 : ℝ)))) ^ (-(0.4 : ℝ))

/-- jonswapSpec::calcPaddleAmps, line 281 (the flap branch taken since the
local flag piston is false):
HoS = 4*(sinh(kh)/kh)*(kh*sinh(kh) - cosh(kh) + 1)/(sinh(2kh) + 2kh). -/
def flapHoS (kh : ℝ) : ℝ :=
  4 * (Real.sinh kh / kh) * (kh * Real.sinh kh - Real.cosh kh + 1) /
    (Real.sinh (2 * kh) + 2 * kh)

/-- jonswapSpec::calcPaddleAmps, line 278 (the dead piston branch):
HoS = 2*(cosh(2kh) - 1)/(sinh(2kh) + 2kh). -/
def pistonHoS (kh : ℝ) : ℝ :=
  2 * (Real.cosh (2 * kh) - 1) / (Real.sinh (2 * kh) + 2 * kh)

/-- The value jonswapSpec::calcPaddleAmps appends for one bin with energy E,
width W and center frequency wc at depth h, lines 272-286:
tempAmp = sqrt(E*W*2) (line 276), then tempAmp = tempAmp/HoS (line 284),
and paddleAmps.push_back(tempAmp/HoS) (line 286) divides by HoS again. -/
def paddleEntry (E W wc h : ℝ) : ℝ :=
  let kh : ℝ := khOf wc h
  let HoS : ℝ := flapHoS kh
  let tempAmp : ℝ := Real.sqrt (E * W * 2)
  tempAmp / HoS / HoS

/-- The bin width paired with entry j of wc by the iterator walk of
jonswapSpec::calcPaddleAmps, lines 259-270, for m = wc.size():
the last entry uses wmax minus the boundary the cursor has reached
(m-2 middle advances leave it at index m-2, truncated at 0), the first
uses the first boundary, and a middle entry j uses bounds j minus
bounds (j-1). -/
def binWidthAt (bounds : List ℝ) (wmax : ℝ) (m j : ℕ) : ℝ :=
  if j = m - 1 then wmax - bounds.getD (m - 2) 0
  else if j = 0 then bounds.getD 0 0
  else bounds.getD j 0 - bounds.getD (j - 1) 0

/-- jonswapSpec::calcPaddleAmps, lines 250-292: one value is appended per
element of wc, pairing entry j with amps j and the bin width of the
iterator walk. -/
def calcPaddleAmps (bounds : List ℝ) (wmax h : ℝ) (amps wc : List ℝ) : List ℝ :=
  (List.range wc.length).map (fun j =>
    paddleEntry (amps.getD j 0) (binWidthAt bounds wmax wc.length j)
      (wc.getD j 0) h)

/-- jonswapSpec::calcAlpha, lines 169-175:
0.076 * pow((vel10/F) * vel10 / g, 0.22). -/
def calcAlpha (vel10 F g : ℝ) : ℝ :=
  let velDivF : ℝ := vel10 / F
  let tmp : ℝ := velDivF * vel10 / g
  0.076 * tmp ^ (0.22 : ℝ)

/-- The C library cbrt on the nonnegative arguments used here: the real
power x^(1/3). -/
def cbrt (x : ℝ) : ℝ := x ^ ((1 : ℝ) / 3)

/-- jonswapSpec::calcWp, lines 179-184: 22 * cbrt(g*g / (vel10*F)). -/
def calcWp (vel10 F g : ℝ) : ℝ :=
  let velxF : ℝ := vel10 * F
  let g2 : ℝ := g * g
  22 * cbrt (g2 / velxF)

/-- The wind/fetch constructor jonswapSpec::jonswapSpec(double,double),
lines 50-64: g = 9.81, alpha = calcAlpha(), wp = calcWp(),
wmax = 33*wp/(2*pi), gamma = 3.3, s1 = 0.7, s2 = 0.9. -/
def mkFromWind (vel10 F : ℝ) : Params :=
  let g : ℝ := 9.81
  let alpha : ℝ := calcAlpha vel10 F g
  let wp : ℝ := calcWp vel10 F g
  { alpha := alpha, wp := wp, wmax := 33 * wp / (2 * Real.pi),
    gamma := 3.3, s1 := 0.7, s2 := 0.9, g := g }

/-- The wind/fetch alpha exactly as the specification words it:
alpha = 0.076 * ((vel10^2/F) / g)^0.22.  Spec-side definition. -/
def alphaSpec (vel10 F g : ℝ) : ℝ :=
  0.076 * ((vel10 ^ 2 / F) / g) ^ (0.22 : ℝ)

/-- The wind/fetch peak frequency exactly as the specification words it:
wp = 22 * cbrt(g^2 / (vel10*F)).  Spec-side definition. -/
def wpSpec (vel10 F g : ℝ) : ℝ :=
  22 * cbrt (g ^ 2 / (vel10 * F))

end

/-! Helper lemmas. -/

theorem setInsert_append {x : ℝ} {l : List ℝ} (h : ∀ y ∈ l, y < x) :
    setInsert x l = l ++ [x] := by
  induction l with
  | nil => rfl
  | cons y ys ih =>
    have hyx : y < x := h y (List.mem_cons_self y ys)
    simp only [setInsert]
    rw [if_neg (not_lt.mpr hyx.le), if_neg (ne_of_gt hyx), List.cons_append]
    exact congrArg (y :: ·) (ih fun z hz => h z (List.mem_cons_of_mem _ hz))

theorem foldl_setInsert :
    ∀ c : List ℝ, c.Pairwise (· < ·) →
      ∀ acc : List ℝ, (∀ y ∈ acc, ∀ x ∈ c, y < x) →
        c.foldl (fun l x => setInsert x l) acc = acc ++ c := by
  intro c
  induction c with
  | nil => intro _ acc _; simp
  | cons x cs ih =>
    intro hc acc hacc
    obtain ⟨hx, hcs⟩ := List.pairwise_cons.mp hc
    rw [List.foldl_cons,
      setInsert_append fun y hy => hacc y hy x (List.mem_cons_self x cs),
      ih hcs (acc ++ [x]) ?_]
    · simp
    · intro y hy z hz
      rcases List.mem_append.mp hy with h1 | h1
      · exact hacc y h1 z (List.mem_cons_of_mem _ hz)
      · rw [List.mem_singleton.mp h1]; exact hx z hz

theorem boundsOf_of_pairwise {c : List ℝ} (hc : c.Pairwise (· < ·)) :
    boundsOf c = c := by
  unfold boundsOf
  rw [foldl_setInsert c hc [] (by simp)]
  simp

theorem candidate_sub (wmax : ℝ) (n : ℕ) (i j : ℕ) (ui uj : ℝ) :
    candidate wmax n j uj - candidate wmax n i ui =
      (((j : ℝ) - i) + 0.4 * (uj - ui)) * (wmax / n) := by
  simp only [candidate, jitterRange, jitterOffset]
  ring

theorem candidate_strict_mono {wmax : ℝ} {n : ℕ} (hw : 0 < wmax) (hn : 2 ≤ n)
    {i j : ℕ} (hij : i < j) {ui uj : ℝ} (hui0 : 0 ≤ ui) (hui1 : ui ≤ 1)
    (huj0 : 0 ≤ uj) (huj1 : uj ≤ 1) :
    candidate wmax n i ui < candidate wmax n j uj := by
  have hn0 : (0 : ℝ) < n := by
    have : (2 : ℝ) ≤ n := by exact_mod_cast hn
    linarith
  have hW : 0 < wmax / n := div_pos hw hn0
  have hji : (1 : ℝ) ≤ (j : ℝ) - i := by
    have : (i : ℝ) + 1 ≤ j := by exact_mod_cast hij
    linarith
  have h1 : (0.6 : ℝ) ≤ ((j : ℝ) - i) + 0.4 * (uj - ui) := by linarith
  have h2 := mul_le_mul_of_nonneg_right h1 hW.le
  have h3 : 0 < 0.6 * (wmax / n) := mul_pos (by norm_num) hW
  have h4 : 0 < candidate wmax n j uj - candidate wmax n i ui := by
    rw [candidate_sub]; linarith
  linarith

theorem trapSum_succ (f : ℝ → ℝ) (startx dx : ℝ) (c : ℕ) :
    trapSum f startx dx (c + 1) =
      trapSum f startx dx c +
        dx * (f (startx + c * dx) + f (startx + ((c : ℝ) + 1) * dx)) / 2 := by
  unfold trapSum
  rw [List.range_succ, List.foldl_append, List.foldl_cons, List.foldl_nil]

theorem trapSum_pos {f : ℝ → ℝ} (hf : ∀ x : ℝ, 0 < x → 0 < f x) {startx dx : ℝ}
    (hs : 0 < startx) (hd : 0 < dx) {c : ℕ} (hc : 0 < c) :
    0 < trapSum f startx dx c := by
  induction c with
  | zero => exact absurd hc (lt_irrefl 0)
  | succ m ih =>
    rw [trapSum_succ]
    have hm0 : (0 : ℝ) ≤ (m : ℝ) * dx := mul_nonneg (Nat.cast_nonneg m) hd.le
    have h1 : 0 < f (startx + m * dx) := hf _ (by linarith)
    have h2 : 0 < f (startx + ((m : ℝ) + 1) * dx) := by
      have : (0 : ℝ) ≤ ((m : ℝ) + 1) * dx := by positivity
      exact hf _ (by linarith)
    have hterm : 0 < dx * (f (startx + m * dx) + f (startx + ((m : ℝ) + 1) * dx)) / 2 := by
      positivity
    rcases Nat.eq_zero_or_pos m with hm | hm
    · subst hm
      have h0 : trapSum f startx dx 0 = 0 := rfl
      rw [h0]
      linarith
    · linarith [ih hm]

theorem getamp_pos {J : Params} (ha : 0 < J.alpha) (hg : 0 < J.g)
    (hγ : 0 < J.gamma) {w : ℝ} (hw : 0 < w) : 0 < getamp J w := by
  simp only [getamp]
  have h1 : 0 < w ^ (-5 : ℤ) := zpow_pos hw _
  have h2 : 0 < J.gamma ^
      Real.exp (-((w - J.wp) / ((if w > J.wp then J.s2 else J.s1) * J.wp)) ^ 2 / 2) :=
    Real.rpow_pos_of_pos hγ _
  positivity

/-! Claim theorems. -/

/-- C5: for every w > 0 the scalar density getamp agrees with the
specification formula alpha * g^2 * w^-5 * decay * peakFactor, with the
shape parameter s1 whenever w is at most wp (the boundary w = wp
included) and s2 whenever w exceeds wp. -/
theorem getamp_eq_densitySpec (J : Params) (w : ℝ) (hw : 0 < w) :
    getamp J w = densitySpec J w := by
  simp only [getamp, densitySpec]
  by_cases h : w ≤ J.wp
  · rw [if_neg (not_lt.mpr h), if_pos h]
    ring
  · rw [if_pos (lt_of_not_le h), if_neg h]
    ring

/-- Witness for C5 at the concrete parameters Jex and w = 1. -/
theorem getamp_eq_densitySpec_witness :
    (0 : ℝ) < 1 ∧ getamp Jex 1 = densitySpec Jex 1 :=
  ⟨one_pos, getamp_eq_densitySpec Jex 1 one_pos⟩

/-- C2: the vectorized density evaluation drops the first input element:
on the two-element input [1, 2] it returns a single density, not two,
so element i of the output is the density of element i+1 of the input. -/
theorem getampVec_drops_first_element :
    (getampVec Jex [1, 2]).length = 1 ∧
    getampVec Jex [1, 2] = [getamp Jex 2] :=
  ⟨rfl, rfl⟩

/-- C1: the value appended per bin by calcPaddleAmps is
sqrt(2*E*W) divided by HoS twice (once on line 284, once inside the
push_back on line 286), i.e. sqrt(2*E*W) / HoS^2, not the single
division sqrt(2*E*W) / HoS of the specification. -/
theorem paddleEntry_divides_by_HoS_twice (E W wc h : ℝ) :
    paddleEntry E W wc h = Real.sqrt (2 * E * W) / flapHoS (khOf wc h) ^ 2 := by
  simp only [paddleEntry]
  have harg : E * W * 2 = 2 * E * W := by ring
  rw [harg, div_div, ← pow_two]

/-- C9 counterexample: with n = 1 no candidate is generated, the boundary
set stays empty, and the center-frequency computation hits the invalid
prev(end) iterator of the empty set (modelled as none) instead of
producing the single center wmax/2. -/
theorem bin_one_center_fails :
    binCandidates 2 1 (fun _ => 1 / 2) = [] ∧
    wcOf (boundsOf (binCandidates 2 1 (fun _ => 1 / 2))) 2 = none :=
  ⟨rfl, rfl⟩

/-- C9 amended: for every wmax and every draw sequence, n = 1 generates no
interior boundary and the center computation fails on the empty set
rather than returning the center wmax/2. -/
theorem bin_one_no_centers (wmax : ℝ) (u : ℕ → ℝ) :
    binCandidates wmax 1 u = [] ∧
    wcOf (boundsOf (binCandidates wmax 1 u)) wmax = none :=
  ⟨rfl, rfl⟩

/-- C7: at n = 2, wmax = 2, i = 1 with the draw u = 0, the generated
candidate sits 50 percent of a bin width below the even-spaced position
i*wmax/n, outside the claimed 20 percent tolerance. -/
theorem jitter_candidate_outside_tolerance :
    candidate 2 2 1 0 - 1 * 2 / 2 = -(1 / 2) ∧
    ¬ |candidate 2 2 1 0 - 1 * 2 / 2| ≤ 0.2 * (2 / 2) := by
  have h : candidate 2 2 1 0 = 1 / 2 := by
    simp only [candidate, jitterRange, jitterOffset]
    norm_num
  constructor
  · rw [h]; norm_num
  · rw [h]
    rw [abs_le]
    push_neg
    intro h1
    norm_num at h1

/-- C3: partitioning into n = 2 bins (one interior boundary) produces only
one center frequency, the midpoint of the last bin; the first bin center
b/2 is never pushed because the center loop body does not run when the
boundary set has a single element. -/
theorem bin_two_single_center :
    boundsOf (binCandidates 2 2 (fun _ => 1 / 2)) = [7 / 10] ∧
    wcOf (boundsOf (binCandidates 2 2 (fun _ => 1 / 2))) 2 =
      some [(7 / 10 + 2) / 2] ∧
    ((wcOf (boundsOf (binCandidates 2 2 (fun _ => 1 / 2))) 2).getD []).length = 1 := by
  have hc : candidate 2 2 1 (1 / 2) = 7 / 10 := by
    simp only [candidate, jitterRange, jitterOffset]
    norm_num
  have hb : binCandidates 2 2 (fun _ => 1 / 2) = [candidate 2 2 1 (1 / 2)] := rfl
  have hbounds : boundsOf (binCandidates 2 2 (fun _ => 1 / 2)) = [7 / 10] := by
    rw [hb, hc]; rfl
  refine ⟨hbounds, ?_, ?_⟩
  · rw [hbounds]; rfl
  · rw [hbounds]; rfl

/-- C8 counterexample: a center frequency of 0 makes kh exactly 0, yet
calcPaddleAmps still appends a value for that bin (output length 1),
with no DegenerateBin failure and no guard on the division by kh. -/
theorem degenerate_kh_still_appends :
    khOf 0 1 = 0 ∧ (calcPaddleAmps [1] 2 1 [1] [0]).length = 1 := by
  constructor
  · simp [khOf, k0Of]
  · rfl

/-- C8 amended: the wavemaker transfer has no failure channel at all: for
every input, including bins whose kh is zero, exactly one value per
center frequency is appended to the output. -/
theorem calcPaddleAmps_always_appends (bounds : List ℝ) (wmax h : ℝ)
    (amps wc : List ℝ) :
    (calcPaddleAmps bounds wmax h amps wc).length = wc.length := by
  simp [calcPaddleAmps]

/-- C6: for positive wind speed and fetch, the wind/fetch constructor sets
alpha, wp, wmax, gamma, s1, s2 and g to exactly the values the
specification gives. -/
theorem mkFromWind_matches_spec (vel10 F : ℝ) (hv : 0 < vel10) (hF : 0 < F) :
    (mkFromWind vel10 F).alpha = alphaSpec vel10 F 9.81 ∧
    (mkFromWind vel10 F).wp = wpSpec vel10 F 9.81 ∧
    (mkFromWind vel10 F).wmax = 33 * (mkFromWind vel10 F).wp / (2 * Real.pi) ∧
    (mkFromWind vel10 F).gamma = 3.3 ∧
    (mkFromWind vel10 F).s1 = 0.7 ∧
    (mkFromWind vel10 F).s2 = 0.9 ∧
    (mkFromWind vel10 F).g = 9.81 := by
  refine ⟨?_, ?_, rfl, rfl, rfl, rfl, rfl⟩
  · show calcAlpha vel10 F 9.81 = alphaSpec vel10 F 9.81
    simp only [calcAlpha, alphaSpec]
    rw [show vel10 / F * vel10 / (9.81 : ℝ) = vel10 ^ 2 / F / 9.81 from by ring]
  · show calcWp vel10 F 9.81 = wpSpec vel10 F 9.81
    simp only [calcWp, wpSpec]
    rw [show (9.81 : ℝ) * 9.81 / (vel10 * F) = 9.81 ^ 2 / (vel10 * F) from by ring]

/-- Witness for C6 at vel10 = 10, F = 100000. -/
theorem mkFromWind_matches_spec_witness :
    (0 : ℝ) < 10 ∧ (0 : ℝ) < 100000 ∧
    ((mkFromWind 10 100000).alpha = alphaSpec 10 100000 9.81 ∧
     (mkFromWind 10 100000).wp = wpSpec 10 100000 9.81 ∧
     (mkFromWind 10 100000).wmax = 33 * (mkFromWind 10 100000).wp / (2 * Real.pi) ∧
     (mkFromWind 10 100000).gamma = 3.3 ∧
     (mkFromWind 10 100000).s1 = 0.7 ∧
     (mkFromWind 10 100000).s2 = 0.9 ∧
     (mkFromWind 10 100000).g = 9.81) :=
  ⟨by norm_num, by norm_num,
    mkFromWind_matches_spec 10 100000 (by norm_num) (by norm_num)⟩

/-- C10: for every n at least 2 and draws in the unit interval, the n-1
jitter candidates are pairwise strictly increasing (so pairwise
distinct), the supremum of a candidate interval lies strictly below the
infimum of the next, set insertion merges nothing, and exactly n-1
boundaries result from the n-1 loop iterations. -/
theorem binCandidates_strictly_increasing (wmax : ℝ) (n : ℕ) (u : ℕ → ℝ)
    (hw : 0 < wmax) (hn : 2 ≤ n) (hu : ∀ i, 0 ≤ u i ∧ u i ≤ 1) :
    (binCandidates wmax n u).Pairwise (· < ·) ∧
    (∀ i : ℕ, candidate wmax n i 1 < candidate wmax n (i + 1) 0) ∧
    boundsOf (binCandidates wmax n u) = binCandidates wmax n u ∧
    (boundsOf (binCandidates wmax n u)).length = n - 1 := by
  have hpw : (binCandidates wmax n u).Pairwise (· < ·) := by
    unfold binCandidates
    exact List.Pairwise.map _
      (fun a b hab => candidate_strict_mono hw hn (Nat.succ_lt_succ hab)
        (hu (a + 1)).1 (hu (a + 1)).2 (hu (b + 1)).1 (hu (b + 1)).2)
      (List.pairwise_lt_range (n - 1))
  have hbd : boundsOf (binCandidates wmax n u) = binCandidates wmax n u :=
    boundsOf_of_pairwise hpw
  refine ⟨hpw, ?_, hbd, ?_⟩
  · intro i
    exact candidate_strict_mono hw hn (Nat.lt_succ_self i)
      (by norm_num) (by norm_num) (by norm_num) (by norm_num)
  · rw [hbd]
    simp [binCandidates]

/-- Witness for C10 at wmax = 1, n = 3, all draws 1/2. -/
theorem binCandidates_strictly_increasing_witness :
    (binCandidates 1 3 (fun _ => 1 / 2)).Pairwise (· < ·) ∧
    boundsOf (binCandidates 1 3 (fun _ => 1 / 2)) = binCandidates 1 3 (fun _ => 1 / 2) ∧
    (boundsOf (binCandidates 1 3 (fun _ => 1 / 2))).length = 2 := by
  have h := binCandidates_strictly_increasing 1 3 (fun _ => 1 / 2)
    (by norm_num) (by norm_num) (fun i => by norm_num)
  exact ⟨h.1, h.2.2.1, h.2.2.2⟩

/-- C4 counterexample: on the concrete parameters Jex with the single
boundary 2 and nmems = 1, the integrator output is neither uniformly
raw energies nor uniformly energy densities: the first entry is the raw
first-bin trapezoid sum while the second entry is the second bin's
trapezoid sum divided by its width.  There is no mode argument. -/
theorem calcBinAmps_no_uniform_mode :
    ¬ (calcBinAmps Jex [2] 1 =
        some [trapSum (getamp Jex) 1 1 2, trapSum (getamp Jex) 2 2 1] ∨
       calcBinAmps Jex [2] 1 =
        some [trapSum (getamp Jex) 1 1 2 / 2, trapSum (getamp Jex) 2 2 1 / 2]) := by
  have hf : ∀ x : ℝ, 0 < x → 0 < getamp Jex x := fun x hx =>
    getamp_pos (by norm_num [Jex]) (by norm_num [Jex]) (by norm_num [Jex]) hx
  have hpos0 : 0 < trapSum (getamp Jex) 1 1 2 :=
    trapSum_pos hf one_pos one_pos (by norm_num)
  have hpos1 : 0 < trapSum (getamp Jex) 2 2 1 :=
    trapSum_pos hf two_pos two_pos one_pos
  have hval : calcBinAmps Jex [2] 1 =
      some [trapSum (getamp Jex) 1 1 2, trapSum (getamp Jex) 2 2 1 / 2] := by
    simp only [calcBinAmps]
    norm_num [Jex, List.zip_cons_cons, List.zip_nil_left, List.zip_nil_right]
  rintro (h | h) <;> rw [hval] at h <;>
    simp only [Option.some.injEq, List.cons.injEq, and_true] at h
  · linarith [h.2, hpos1]
  · linarith [h, hpos0]

/-- C4 amended: the integrator has no mode flag; its output has length
bounds.size() + 1, the first entry is the first bin's raw trapezoid
sum, and every later entry is that bin's trapezoid sum divided by its
bin width (upper edge the next boundary, or wmax for the last bin). -/
theorem calcBinAmps_mixed_modes (J : Params) (b0 : ℝ) (rest : List ℝ) (nmems : ℕ) :
    ((calcBinAmps J (b0 :: rest) nmems).getD []).length = (b0 :: rest).length + 1 ∧
    ((calcBinAmps J (b0 :: rest) nmems).getD []).getD 0 0 =
      trapSum (getamp J) (b0 / ((nmems : ℝ) + 1)) (b0 / ((nmems : ℝ) + 1)) (nmems + 1) ∧
    ∀ j : ℕ, j < rest.length + 1 →
      ((calcBinAmps J (b0 :: rest) nmems).getD []).getD (j + 1) 0 =
        trapSum (getamp J) ((b0 :: rest).getD j 0)
            (((rest ++ [J.wmax]).getD j 0 - (b0 :: rest).getD j 0) / (nmems : ℝ)) nmems /
          ((rest ++ [J.wmax]).getD j 0 - (b0 :: rest).getD j 0) := by
  simp only [calcBinAmps, Option.getD_some]
  refine ⟨?_, rfl, ?_⟩
  · simp [List.length_zip]
  · intro j hj
    have hj1 : j < (b0 :: rest).length := by simp; omega
    have hj2 : j < (rest ++ [J.wmax]).length := by simp; omega
    have hjz : j < ((b0 :: rest).zip (rest ++ [J.wmax])).length := by
      simp [List.length_zip]
      omega
    rw [List.getD_cons_succ, List.getD_eq_getElem _ _ (by simpa using hjz),
      List.getElem_map, List.getElem_zip,
      List.getD_eq_getElem _ _ hj1, List.getD_eq_getElem _ _ hj2]

/-- Witness for C4's amended statement at Jex, one boundary 2, nmems = 1,
bin index j = 0. -/
theorem calcBinAmps_mixed_modes_witness :
    ((calcBinAmps Jex [2] 1).getD []).getD 1 0 =
      trapSum (getamp Jex) (([2] : List ℝ).getD 0 0)
          (((([] ++ [Jex.wmax] : List ℝ).getD 0 0) - ([2] : List ℝ).getD 0 0) / ((1 : ℕ) : ℝ)) 1 /
        (([] ++ [Jex.wmax] : List ℝ).getD 0 0 - ([2] : List ℝ).getD 0 0) :=
  (calcBinAmps_mixed_modes Jex 2 [] 1).2.2 0 (by norm_num)

end JonswapSpec
